import Mathlib

/-!
Verification of the in-memory TTL/LRU cache layer of ergo-price-mcp
(`src/ergo_price_mcp/cache/memory_cache.py` and
`src/ergo_price_mcp/cache/decorators.py`), shallowly embedded in Lean.

Time is modelled as `Nat` (both the wall clock `datetime.now()` used for
expiry and the monotonic `time.time()` used for LRU ranking are supplied
explicitly to each operation).  The Python `dict` is modelled as an
insertion-ordered association list with unique keys; `dictInsert` on a
present key replaces the value in place (Python dicts keep the original
insertion position) and appends otherwise, matching CPython semantics.
Cached payloads are modelled by the inductive `Val`, covering the value
shapes the claims exercise (strings, integers and Python's `None`), with
the size estimator translated from `CacheEntry._estimate_size` on those
shapes (strings measure their UTF-8 byte length, ints cost 8, and `None`
falls through to the JSON fallback `"null"`, 4 bytes).
-/

namespace ErgoCache

/-- Cached payload values: the value shapes exercised by the claims.
`vnone` models Python's `None`. -/
inductive Val where
  | vstr (s : String)
  | vint (n : Int)
  | vnone
deriving DecidableEq

/-- `CacheEntry._estimate_size`, restricted to the `Val` shapes: a string
is its UTF-8 byte length, an int is 8, and `None` falls through to the
JSON fallback (`json.dumps(None)` is `"null"`, 4 bytes). -/
def estimateSize : Val → Nat
  | .vstr s => s.utf8ByteSize
  | .vint _ => 8
  | .vnone => 4

/-- `CacheEntry`: a value plus temporal and access metadata.  Timestamps
are `Nat`. -/
structure CacheEntry where
  value : Val
  created_at : Nat
  expires_at : Nat
  access_count : Nat
  last_accessed : Option Nat
  size_bytes : Nat
deriving DecidableEq

/-- Entry construction (`CacheEntry(...)` followed by `__post_init__`,
which freezes the estimated size). -/
def mkEntry (v : Val) (created expires : Nat) : CacheEntry :=
  { value := v
    created_at := created
    expires_at := expires
    access_count := 0
    last_accessed := none
    size_bytes := estimateSize v }

/-- `CacheEntry.is_expired`: `datetime.now() > self.expires_at`. -/
def CacheEntry.is_expired (e : CacheEntry) (now : Nat) : Bool :=
  now > e.expires_at

/-- `CacheEntry.access`: raises (`Except.error`) if expired, otherwise
bumps the access count, stamps `last_accessed`, and returns the value
together with the updated entry. -/
def CacheEntry.access (e : CacheEntry) (now : Nat) : Except Unit (Val × CacheEntry) :=
  if e.is_expired now then .error ()
  else .ok (e.value,
    { e with access_count := e.access_count + 1, last_accessed := some now })

/-- Insertion-ordered association list standing for a Python `dict`. -/
abbrev Dict (β : Type) := List (String × β)

/-- `d.get(k)` / `d[k]`. -/
def dictGet {β : Type} (k : String) : Dict β → Option β
  | [] => none
  | (k', v) :: rest => if k' = k then some v else dictGet k rest

/-- `d[k] = v`: replace in place if present (Python dicts keep the
original position), append otherwise. -/
def dictInsert {β : Type} (k : String) (v : β) : Dict β → Dict β
  | [] => [(k, v)]
  | (k', v') :: rest =>
    if k' = k then (k', v) :: rest else (k', v') :: dictInsert k v rest

/-- `d.pop(k)` (ignoring the returned value): drop every pair with key
`k`; on the unique-key dictionaries maintained by the store this drops
exactly the one binding. -/
def dictRemove {β : Type} (k : String) (l : Dict β) : Dict β :=
  l.filter (fun q => q.1 != k)

/-- `CacheStats`: the counters the store mutates on every operation.
`total_size_bytes` is an `Int` because Python integers are signed and
unbounded. -/
structure CacheStats where
  hits : Nat
  misses : Nat
  entries : Nat
  total_size_bytes : Int
  evictions : Nat
  expirations : Nat
deriving DecidableEq

/-- The all-zero statistics of a freshly constructed store. -/
def CacheStats.init : CacheStats :=
  { hits := 0, misses := 0, entries := 0, total_size_bytes := 0
    evictions := 0, expirations := 0 }

/-- `CacheStats.hit_rate`: `hits / (hits + misses) * 100`, `0` with no
requests.  The source computes this in floating point; the formula is
embedded exactly over `ℚ`. -/
def CacheStats.hit_rate (st : CacheStats) : ℚ :=
  if st.hits + st.misses = 0 then 0
  else (st.hits : ℚ) / ((st.hits : ℚ) + (st.misses : ℚ)) * 100

/-- `MemoryCache` state: the entry map, the LRU last-touch map, the
entry-count bound and the statistics. -/
structure MemoryCache where
  cache : Dict CacheEntry
  access_order : Dict Nat
  max_size : Nat
  stats : CacheStats
deriving DecidableEq

/-- A freshly constructed store with bound `n`. -/
def initCache (n : Nat) : MemoryCache :=
  { cache := [], access_order := [], max_size := n, stats := CacheStats.init }

/-- `MemoryCache._generate_key`: `f"{prefix}:{key}"` when a prefix is
supplied, except that Python truthiness treats an empty prefix string
like no prefix at all. -/
def generate_key (key : String) (pre : Option String) : String :=
  match pre with
  | some p => if p = "" then key else p ++ ":" ++ key
  | none => key

/-- The pair with the smallest timestamp, first occurrence winning ties:
`min(keys, key=lambda k: self._access_order[k])` keeps the current
minimum and replaces it only on a strictly smaller candidate. -/
def lruPair (p : String × Nat) (l : List (String × Nat)) : String × Nat :=
  l.foldl (fun acc q => if q.2 < acc.2 then q else acc) p

/-- `MemoryCache._evict_lru`: no-op on an empty LRU map, otherwise
remove the least-recently-touched key from both maps, bump the eviction
counter and subtract the evicted entry's recorded size.  (Under the
store invariant the evicted key is always present in the entry map,
mirroring the unconditional `self._cache.pop(lru_key)`.) -/
def evict_lru (s : MemoryCache) : MemoryCache :=
  match s.access_order with
  | [] => s
  | p :: rest =>
    let lk := (lruPair p rest).1
    let removed : Int :=
      match dictGet lk s.cache with
      | some e => (e.size_bytes : Int)
      | none => 0
    { s with
      cache := dictRemove lk s.cache
      access_order := dictRemove lk s.access_order
      stats := { s.stats with
        total_size_bytes := s.stats.total_size_bytes - removed
        evictions := s.stats.evictions + 1 } }

/-- `MemoryCache.set`: build the entry with `expires_at = now + ttl`,
evict the LRU entry first when a *new* key would exceed `max_size`, then
store, stamp the LRU map, and update `entries` and the running size
total.  (The overwritten entry's size, when the key was already present,
is not subtracted — exactly as in the source.) -/
def MemoryCache.set (s : MemoryCache) (key : String) (v : Val) (ttl : Nat)
    (pre : Option String) (now : Nat) : MemoryCache :=
  let full_key := generate_key key pre
  let entry := mkEntry v now (now + ttl)
  let s1 :=
    if s.max_size ≤ s.cache.length ∧ dictGet full_key s.cache = none
    then evict_lru s else s
  let cache' := dictInsert full_key entry s1.cache
  { s1 with
    cache := cache'
    access_order := dictInsert full_key now s1.access_order
    stats := { s1.stats with
      entries := cache'.length
      total_size_bytes := s1.stats.total_size_bytes + (entry.size_bytes : Int) } }

/-- The shared expired-removal tail of `MemoryCache.get`: drop the entry
from both maps, count a miss and an expiration, refresh `entries`, and
subtract the entry's recorded size. -/
def removeExpired (s : MemoryCache) (full_key : String) (e : CacheEntry) :
    MemoryCache :=
  let cache' := dictRemove full_key s.cache
  { s with
    cache := cache'
    access_order := dictRemove full_key s.access_order
    stats := { s.stats with
      misses := s.stats.misses + 1
      expirations := s.stats.expirations + 1
      entries := cache'.length
      total_size_bytes := s.stats.total_size_bytes - (e.size_bytes : Int) } }

/-- `MemoryCache.get`.  The expiry test and the `access()` call read the
clock separately in the source (`t1` and `t2` here); the `ValueError`
raised by `access()` when the entry expires between the two reads is
caught and handled exactly like the expired-on-lookup case. -/
def MemoryCache.get (s : MemoryCache) (key : String) (pre : Option String)
    (t1 t2 : Nat) : Option Val × MemoryCache :=
  let full_key := generate_key key pre
  match dictGet full_key s.cache with
  | none =>
    (none, { s with stats := { s.stats with misses := s.stats.misses + 1 } })
  | some entry =>
    if entry.is_expired t1 then
      (none, removeExpired s full_key entry)
    else
      match entry.access t2 with
      | .ok (v, e') =>
        (some v,
          { s with
            cache := dictInsert full_key e' s.cache
            access_order := dictInsert full_key t2 s.access_order
            stats := { s.stats with hits := s.stats.hits + 1 } })
      | .error _ => (none, removeExpired s full_key entry)

/-- `MemoryCache.delete`: remove if present, report whether anything was
removed, decrement the running size accordingly. -/
def MemoryCache.delete (s : MemoryCache) (key : String) (pre : Option String) :
    Bool × MemoryCache :=
  let full_key := generate_key key pre
  match dictGet full_key s.cache with
  | none => (false, s)
  | some e =>
    let cache' := dictRemove full_key s.cache
    (true,
      { s with
        cache := cache'
        access_order := dictRemove full_key s.access_order
        stats := { s.stats with
          entries := cache'.length
          total_size_bytes := s.stats.total_size_bytes - (e.size_bytes : Int) } })

/-- `MemoryCache.exists`: like `get` but without touching hit/miss
counters or the LRU map; still actively removes an expired entry (which
counts one expiration). -/
def MemoryCache.existsKey (s : MemoryCache) (key : String) (pre : Option String)
    (now : Nat) : Bool × MemoryCache :=
  let full_key := generate_key key pre
  match dictGet full_key s.cache with
  | none => (false, s)
  | some entry =>
    if entry.is_expired now then
      let cache' := dictRemove full_key s.cache
      (false,
        { s with
          cache := cache'
          access_order := dictRemove full_key s.access_order
          stats := { s.stats with
            expirations := s.stats.expirations + 1
            entries := cache'.length
            total_size_bytes := s.stats.total_size_bytes - (entry.size_bytes : Int) } })
    else (true, s)

/-- `str.startswith(p)`, as a character-level prefix test (the
`String.isPrefixOf` of the standard library is extensionally the same
but is defined through a byte-indexed loop that the kernel cannot
evaluate). -/
def strStartsWith (s p : String) : Bool :=
  p.data.isPrefixOf s.data

/-- `MemoryCache.clear`: with no prefix, drop everything and zero the
entry/size counters; with a prefix, drop exactly the keys starting with
`prefix + ":"`, subtracting each dropped entry's size. -/
def MemoryCache.clear (s : MemoryCache) (pre : Option String) :
    Nat × MemoryCache :=
  match pre with
  | none =>
    (s.cache.length,
      { s with
        cache := []
        access_order := []
        stats := { s.stats with entries := 0, total_size_bytes := 0 } })
  | some p =>
    let pk := p ++ ":"
    let dropped := s.cache.filter (fun q => strStartsWith q.1 pk)
    let cache' := s.cache.filter (fun q => !strStartsWith q.1 pk)
    (dropped.length,
      { s with
        cache := cache'
        access_order := s.access_order.filter (fun q => !strStartsWith q.1 pk)
        stats := { s.stats with
          entries := cache'.length
          total_size_bytes :=
            s.stats.total_size_bytes -
              ((dropped.map (fun q => (q.2.size_bytes : Int))).sum) } })

/-- `MemoryCache.cleanup_expired`: collect every expired key, pop each
from both maps, subtract their sizes, add the count to `expirations`. -/
def MemoryCache.cleanup_expired (s : MemoryCache) (now : Nat) :
    Nat × MemoryCache :=
  let expired_keys := (s.cache.filter (fun q => q.2.is_expired now)).map Prod.fst
  let dropped := s.cache.filter (fun q => expired_keys.contains q.1)
  let cache' := s.cache.filter (fun q => !expired_keys.contains q.1)
  (expired_keys.length,
    { s with
      cache := cache'
      access_order := s.access_order.filter (fun q => !expired_keys.contains q.1)
      stats := { s.stats with
        expirations := s.stats.expirations + expired_keys.length
        entries := cache'.length
        total_size_bytes :=
          s.stats.total_size_bytes -
            ((dropped.map (fun q => (q.2.size_bytes : Int))).sum) } })

/-- JSON rendering of a payload value, after `json.dumps`: strings are
quoted, ints are printed, `None` renders as `null`.  (Escape sequences
inside strings are irrelevant to the claims and elided.) -/
def renderVal : Val → String
  | .vstr s => "\x22" ++ s ++ "\x22"
  | .vint n => toString n
  | .vnone => "null"

/-- JSON rendering of a list, after `json.dumps`. -/
def renderList (vs : List Val) : String :=
  "[" ++ String.intercalate ", " (vs.map renderVal) ++ "]"

/-- The keyword arguments as `json.dumps(..., sort_keys=True)` renders
them: items listed by sorted key, each key looked up in the dict built
from the supplied arguments. -/
def sortedItems (kw : List (String × Val)) : List (String × Val) :=
  ((kw.map Prod.fst).mergeSort).map (fun k => (k, (dictGet k kw).getD .vnone))

/-- JSON rendering of the kwargs object. -/
def renderItems (items : List (String × Val)) : String :=
  "\x7b" ++
    String.intercalate ", "
      (items.map (fun q => "\x22" ++ q.1 ++ "\x22: " ++ renderVal q.2)) ++
  "\x7d"

/-- `cache_key_from_args`' stable serialization:
`json.dumps({'args': args, 'kwargs': kwargs}, sort_keys=True)`. -/
def cache_key_data (args : List Val) (kw : List (String × Val)) : String :=
  "\x7b\x22args\x22: " ++ renderList args ++
    ", \x22kwargs\x22: " ++ renderItems (sortedItems kw) ++ "\x7d"

/-- `cache_key_from_args`: hash the canonical serialization.  The SHA-256
digest truncation is abstracted as an arbitrary function `h` of the
serialized string; every theorem below quantifies over `h`, so it holds
for the concrete digest in particular. -/
def cache_key_from_args (h : String → String) (args : List Val)
    (kw : List (String × Val)) : String :=
  h (cache_key_data args kw)

/-- The `cached` decorator's default key derivation:
`f"{func.__name__}:{cache_key_from_args(*args, **kwargs)}"`. -/
def default_cache_key (h : String → String) (fname : String) (args : List Val)
    (kw : List (String × Val)) : String :=
  fname ++ ":" ++ cache_key_from_args h args kw

/-- The `cached` decorator's wrapper (`sync_wrapper`; `async_wrapper` is
textually identical up to `await`).  `skip` models `skip_cache` (absent
= `None`), `keyFn` the derived key (either `key_func` or the default
derivation above), `f` the wrapped fetch operation, which can fail
(`Except.error`); `cnt` counts invocations of `f`.  A Python `None`
result is `Val.vnone`; the wrapper's `is not None` test cannot tell a
stored `None` from a miss, which the `match` below reflects. -/
def sync_wrapper {α ε : Type} (skip : Option (α → Bool)) (keyFn : α → String)
    (pre : Option String) (ttl : Nat) (f : α → Except ε Val)
    (s : MemoryCache) (cnt : Nat) (a : α) (now : Nat) :
    Except ε Val × MemoryCache × Nat :=
  if (match skip with | some sk => sk a | none => false) then
    (f a, s, cnt + 1)
  else
    let ck := keyFn a
    let r := s.get ck pre now now
    let cached_value : Option Val :=
      match r.1 with
      | some .vnone => none
      | x => x
    match cached_value with
    | some v => (.ok v, r.2, cnt)
    | none =>
      match f a with
      | .ok result => (.ok result, (r.2).set ck result ttl pre now, cnt + 1)
      | .error e => (.error e, r.2, cnt + 1)

/-- One store operation of a trace.  `opGet` carries the two clock reads
of `MemoryCache.get`. -/
inductive CacheOp where
  | opSet (key : String) (v : Val) (ttl : Nat) (pre : Option String) (now : Nat)
  | opGet (key : String) (pre : Option String) (t1 t2 : Nat)
  | opDelete (key : String) (pre : Option String)
  | opHas (key : String) (pre : Option String) (now : Nat)
  | opClear (pre : Option String)
  | opCleanup (now : Nat)

/-- Run one operation, keeping only the store state. -/
def step (s : MemoryCache) : CacheOp → MemoryCache
  | .opSet key v ttl pre now => s.set key v ttl pre now
  | .opGet key pre t1 t2 => (s.get key pre t1 t2).2
  | .opDelete key pre => (s.delete key pre).2
  | .opHas key pre now => (s.existsKey key pre now).2
  | .opClear pre => (s.clear pre).2
  | .opCleanup now => (s.cleanup_expired now).2

/-- Run a trace of operations against a freshly constructed store with
bound `n`. -/
def runOps (n : Nat) (ops : List CacheOp) : MemoryCache :=
  ops.foldl step (initCache n)

/-- The internal consistency invariant of `MemoryCache`, established by
construction and preserved by every operation. -/
def Inv (s : MemoryCache) : Prop :=
  s.cache.map Prod.fst = s.access_order.map Prod.fst ∧
  (s.cache.map Prod.fst).Nodup ∧
  s.cache.length ≤ s.max_size

/-- Number of `get` operations in a trace. -/
def countGets : List CacheOp → Nat
  | [] => 0
  | .opGet _ _ _ _ :: rest => countGets rest + 1
  | _ :: rest => countGets rest

/-- A concrete fetch operation for witnesses: echo the string argument
as a cached string value, never failing. -/
def echoFetch (s : String) : Except Unit Val := .ok (.vstr s)

/-- A concrete fetch operation for witnesses: always return Python
`None`, never failing. -/
def noneFetch (_ : String) : Except Unit Val := .ok .vnone

/-! ## Dictionary lemmas -/

theorem dictGet_eq_none {β : Type} {k : String} {l : Dict β} :
    dictGet k l = none ↔ k ∉ l.map Prod.fst := by
  induction l with
  | nil => simp [dictGet]
  | cons q rest ih =>
    obtain ⟨k', v⟩ := q
    by_cases h : k' = k
    · subst h
      simp [dictGet]
    · simp only [dictGet, if_neg h, List.map_cons, List.mem_cons, ih]
      have hne : ¬ k = k' := Ne.symm h
      tauto

theorem dictGet_dictInsert_self {β : Type} {k : String} {v : β} {l : Dict β} :
    dictGet k (dictInsert k v l) = some v := by
  induction l with
  | nil => simp [dictGet, dictInsert]
  | cons q rest ih =>
    obtain ⟨k', v'⟩ := q
    by_cases h : k' = k
    · simp [dictGet, dictInsert, h]
    · simp [dictGet, dictInsert, h, ih]

theorem dictGet_dictInsert_ne {β : Type} {k k' : String} {v : β} {l : Dict β}
    (h : k' ≠ k) : dictGet k' (dictInsert k v l) = dictGet k' l := by
  induction l with
  | nil => simp [dictGet, dictInsert, Ne.symm h]
  | cons q rest ih =>
    obtain ⟨k0, v0⟩ := q
    by_cases h0 : k0 = k
    · subst h0
      simp [dictGet, dictInsert, Ne.symm h]
    · simp only [dictInsert, if_neg h0]
      by_cases h1 : k0 = k'
      · simp [dictGet, h1]
      · simp [dictGet, h1, ih]

theorem keys_dictInsert {β : Type} {k : String} {v : β} {l : Dict β} :
    (dictInsert k v l).map Prod.fst =
      if k ∈ l.map Prod.fst then l.map Prod.fst else l.map Prod.fst ++ [k] := by
  induction l with
  | nil => simp [dictInsert]
  | cons q rest ih =>
    obtain ⟨k', v'⟩ := q
    by_cases h : k' = k
    · subst h
      simp [dictInsert]
    · simp only [dictInsert, if_neg h, List.map_cons, ih]
      have hne : ¬ k = k' := Ne.symm h
      by_cases hm : k ∈ rest.map Prod.fst
      · simp [hm, List.mem_cons, hne]
      · simp [hm, List.mem_cons, hne]

theorem length_dictInsert_new {β : Type} {k : String} {v : β} {l : Dict β}
    (h : dictGet k l = none) : (dictInsert k v l).length = l.length + 1 := by
  have hk : k ∉ l.map Prod.fst := dictGet_eq_none.1 h
  have := @keys_dictInsert β k v l
  rw [if_neg hk] at this
  have hlen := congrArg List.length this
  simpa using hlen

theorem length_dictInsert_mem {β : Type} {k : String} {v : β} {l : Dict β}
    (h : dictGet k l ≠ none) : (dictInsert k v l).length = l.length := by
  have hk : k ∈ l.map Prod.fst := by
    by_contra hc
    exact h (dictGet_eq_none.2 hc)
  have := @keys_dictInsert β k v l
  rw [if_pos hk] at this
  have hlen := congrArg List.length this
  simpa using hlen

theorem keys_filter_fst {β : Type} {p : String → Bool} {l : Dict β} :
    (l.filter (fun q => p q.1)).map Prod.fst = (l.map Prod.fst).filter p := by
  induction l with
  | nil => simp
  | cons q rest ih =>
    by_cases h : p q.1
    · simp [List.filter_cons, h, ih]
    · simp [List.filter_cons, h, ih]

theorem dictGet_filter_key {β : Type} {p : String → Bool} {k : String}
    {l : Dict β} :
    dictGet k (l.filter (fun q => p q.1)) =
      if p k then dictGet k l else none := by
  induction l with
  | nil => simp [dictGet]
  | cons q rest ih =>
    obtain ⟨k', v⟩ := q
    by_cases h : k' = k
    · subst h
      by_cases hp : p k'
      · simp [List.filter_cons, hp, dictGet]
      · simp [List.filter_cons, hp, dictGet, ih]
    · by_cases hp : p k'
      · simp [List.filter_cons, hp, dictGet, h, ih]
      · simp [List.filter_cons, hp, dictGet, h, ih]

theorem dictGet_dictRemove {β : Type} {k k' : String} {l : Dict β} :
    dictGet k' (dictRemove k l) = if k' = k then none else dictGet k' l := by
  induction l with
  | nil => by_cases h : k' = k <;> simp [dictGet, dictRemove, h]
  | cons q rest ih =>
    obtain ⟨k0, v0⟩ := q
    by_cases h0 : k0 = k
    · subst h0
      rw [show dictRemove k0 ((k0, v0) :: rest) = dictRemove k0 rest from by
        simp [dictRemove, List.filter_cons]]
      rw [ih]
      by_cases h1 : k' = k0
      · simp [h1]
      · simp [h1, dictGet, Ne.symm h1]
    · have hb : (k0 != k) = true := bne_iff_ne.2 h0
      rw [show dictRemove k ((k0, v0) :: rest) = (k0, v0) :: dictRemove k rest
          from by simp [dictRemove, List.filter_cons, hb]]
      by_cases h1 : k0 = k'
      · subst h1
        simp [dictGet, h0]
      · simp [dictGet, h1, ih]

theorem keys_dictRemove {β : Type} {k : String} {l : Dict β} :
    (dictRemove k l).map Prod.fst = (l.map Prod.fst).filter (· != k) := by
  induction l with
  | nil => simp [dictRemove]
  | cons q rest ih =>
    simp only [dictRemove, List.filter_cons, List.map_cons] at *
    by_cases hb : (q.1 != k) = true
    · simp [hb, ih]
    · simp [hb, ih]

theorem nodup_keys_dictInsert {β : Type} {k : String} {v : β} {l : Dict β}
    (h : (l.map Prod.fst).Nodup) : ((dictInsert k v l).map Prod.fst).Nodup := by
  rw [keys_dictInsert]
  by_cases hm : k ∈ l.map Prod.fst
  · rw [if_pos hm]; exact h
  · rw [if_neg hm]
    rw [List.nodup_append]
    refine ⟨h, List.nodup_singleton k, ?_⟩
    intro a ha hb
    rw [List.mem_singleton] at hb
    exact hm (hb ▸ ha)

theorem length_dictRemove_mem {β : Type} {k : String} {l : Dict β}
    (hnd : (l.map Prod.fst).Nodup) (h : dictGet k l ≠ none) :
    (dictRemove k l).length + 1 = l.length := by
  induction l with
  | nil => simp [dictGet] at h
  | cons q rest ih =>
    obtain ⟨k', v⟩ := q
    simp only [List.map_cons, List.nodup_cons] at hnd
    by_cases hk : k' = k
    · subst hk
      have hout : dictRemove k' rest = rest := by
        unfold dictRemove
        apply List.filter_eq_self.2
        intro q hq
        have hmem : q.1 ∈ rest.map Prod.fst := List.mem_map_of_mem Prod.fst hq
        have hne : q.1 ≠ k' := fun hc => hnd.1 (hc ▸ hmem)
        exact bne_iff_ne.2 hne
      have hstep : dictRemove k' ((k', v) :: rest) = rest := by
        have h2 : dictRemove k' ((k', v) :: rest) = dictRemove k' rest := by
          simp [dictRemove, List.filter_cons]
        rw [h2, hout]
      rw [hstep]
      simp
    · have h' : dictGet k rest ≠ none := by
        simpa [dictGet, hk] using h
      have hrec := ih hnd.2 h'
      have hb : (k' != k) = true := bne_iff_ne.2 hk
      simp only [dictRemove, List.filter_cons, hb, if_true,
        List.length_cons] at *
      omega

theorem lruPair_mem {p : String × Nat} {l : List (String × Nat)} :
    lruPair p l ∈ p :: l := by
  induction l generalizing p with
  | nil => simp [lruPair]
  | cons q rest ih =>
    simp only [lruPair, List.foldl_cons]
    by_cases h : q.2 < p.2
    · simp only [if_pos h]
      have := @ih q
      simp only [lruPair] at this
      rcases (List.mem_cons.1 this) with h1 | h1
      · simp [h1]
      · simp [List.mem_cons, h1]
    · simp only [if_neg h]
      have := @ih p
      simp only [lruPair] at this
      rcases (List.mem_cons.1 this) with h1 | h1
      · simp [h1]
      · simp [List.mem_cons, h1]

theorem lruPair_min {p : String × Nat} {l : List (String × Nat)} :
    (lruPair p l).2 ≤ p.2 ∧ ∀ q ∈ l, (lruPair p l).2 ≤ q.2 := by
  induction l generalizing p with
  | nil => simp [lruPair]
  | cons q rest ih =>
    simp only [lruPair, List.foldl_cons]
    by_cases h : q.2 < p.2
    · simp only [if_pos h]
      have := @ih q
      simp only [lruPair] at this
      refine ⟨le_trans this.1 (le_of_lt h), ?_⟩
      intro r hr
      rcases List.mem_cons.1 hr with h1 | h1
      · exact h1 ▸ this.1
      · exact this.2 r h1
    · simp only [if_neg h]
      have := @ih p
      simp only [lruPair] at this
      refine ⟨this.1, ?_⟩
      intro r hr
      rcases List.mem_cons.1 hr with h1 | h1
      · exact h1 ▸ le_trans this.1 (le_of_not_lt h)
      · exact this.2 r h1

/-! ## Store invariant: the entry map and the LRU map track the same
key set (without duplicates), and the entry count respects `max_size`. -/

theorem length_map_fst_eq {β γ : Type} {l1 : Dict β} {l2 : Dict γ}
    (h : l1.map Prod.fst = l2.map Prod.fst) : l1.length = l2.length := by
  have := congrArg List.length h
  simpa using this

theorem keys_dictInsert_eq {β γ : Type} {k : String} {v : β} {w : γ}
    {l1 : Dict β} {l2 : Dict γ} (h : l1.map Prod.fst = l2.map Prod.fst) :
    (dictInsert k v l1).map Prod.fst = (dictInsert k w l2).map Prod.fst := by
  rw [keys_dictInsert, keys_dictInsert, h]

theorem keys_dictRemove_eq {β γ : Type} {k : String}
    {l1 : Dict β} {l2 : Dict γ} (h : l1.map Prod.fst = l2.map Prod.fst) :
    (dictRemove k l1).map Prod.fst = (dictRemove k l2).map Prod.fst := by
  rw [keys_dictRemove, keys_dictRemove, h]

theorem nodup_keys_dictRemove {β : Type} {k : String} {l : Dict β}
    (h : (l.map Prod.fst).Nodup) : ((dictRemove k l).map Prod.fst).Nodup := by
  rw [keys_dictRemove]
  exact h.filter _

theorem length_dictRemove_le {β : Type} {k : String} {l : Dict β} :
    (dictRemove k l).length ≤ l.length :=
  List.length_filter_le _ l

/-- `_evict_lru` keeps the two maps aligned and, on a nonempty LRU map,
removes exactly one entry. -/
theorem evict_lru_inv {s : MemoryCache}
    (h1 : s.cache.map Prod.fst = s.access_order.map Prod.fst)
    (h2 : (s.cache.map Prod.fst).Nodup) :
    (evict_lru s).cache.map Prod.fst = (evict_lru s).access_order.map Prod.fst ∧
    ((evict_lru s).cache.map Prod.fst).Nodup ∧
    (s.access_order ≠ [] → (evict_lru s).cache.length + 1 = s.cache.length) ∧
    (evict_lru s).max_size = s.max_size := by
  rcases hao : s.access_order with _ | ⟨p, rest⟩
  · constructor
    · simp [evict_lru, hao, h1, hao ▸ h1]
    · refine ⟨by simp [evict_lru, hao, h2], by simp, by simp [evict_lru, hao]⟩
  · have hmem : (lruPair p rest).1 ∈ s.access_order.map Prod.fst := by
      rw [hao]
      exact List.mem_map_of_mem Prod.fst lruPair_mem
    have hmemc : (lruPair p rest).1 ∈ s.cache.map Prod.fst := h1 ▸ hmem
    have hget : dictGet (lruPair p rest).1 s.cache ≠ none := by
      intro hc
      exact (dictGet_eq_none.1 hc) hmemc
    refine ⟨?_, ?_, ?_, ?_⟩
    · simp only [evict_lru, hao]
      exact keys_dictRemove_eq (hao ▸ h1)
    · simp only [evict_lru, hao]
      exact nodup_keys_dictRemove h2
    · intro _
      simp only [evict_lru, hao]
      exact length_dictRemove_mem h2 hget
    · simp [evict_lru, hao]

/-- `set` preserves the invariant when the bound is positive. -/
theorem set_inv {s : MemoryCache} (hmax : 1 ≤ s.max_size) (h : Inv s)
    (key : String) (v : Val) (ttl : Nat) (pre : Option String) (now : Nat) :
    Inv (s.set key v ttl pre now) ∧
    (s.set key v ttl pre now).max_size = s.max_size := by
  obtain ⟨h1, h2, h3⟩ := h
  set fk := generate_key key pre with hfk
  by_cases hc : s.max_size ≤ s.cache.length ∧ dictGet fk s.cache = none
  · -- capacity reached on a novel key: evict first, then insert
    have hlen : s.cache.length = s.max_size := le_antisymm h3 hc.1
    have hne : s.access_order ≠ [] := by
      intro hnil
      have : s.cache.map Prod.fst = [] := by rw [h1, hnil]; simp
      have hc0 : s.cache = [] := by
        cases hcc : s.cache with
        | nil => rfl
        | cons a l => rw [hcc] at this; simp at this
      rw [hc0] at hlen
      simp at hlen
      omega
    obtain ⟨e1, e2, e3, e4⟩ := evict_lru_inv h1 h2
    have hlen1 : (evict_lru s).cache.length + 1 = s.max_size := by
      rw [e3 hne, hlen]
    have hfresh : dictGet fk (evict_lru s).cache = none := by
      apply dictGet_eq_none.2
      intro hmem
      -- the evicted store's keys are a sub-collection of the original keys
      have : fk ∈ s.cache.map Prod.fst := by
        rcases hao : s.access_order with _ | ⟨p, rest⟩
        · exact absurd hao hne
        · have : (evict_lru s).cache.map Prod.fst
              = (s.cache.map Prod.fst).filter (· != (lruPair p rest).1) := by
            simp only [evict_lru, hao]
            exact keys_dictRemove
          rw [this] at hmem
          exact List.mem_of_mem_filter hmem
      exact (dictGet_eq_none.1 hc.2) this
    constructor
    · refine ⟨?_, ?_, ?_⟩
      · simp only [MemoryCache.set, ← hfk, if_pos hc]
        exact keys_dictInsert_eq e1
      · simp only [MemoryCache.set, ← hfk, if_pos hc]
        exact nodup_keys_dictInsert e2
      · simp only [MemoryCache.set, ← hfk, if_pos hc]
        rw [length_dictInsert_new hfresh, e4]
        omega
    · simp [MemoryCache.set, ← hfk, if_pos hc, e4]
  · -- no eviction: either the key is present or there is room
    constructor
    · refine ⟨?_, ?_, ?_⟩
      · simp only [MemoryCache.set, ← hfk, if_neg hc]
        exact keys_dictInsert_eq h1
      · simp only [MemoryCache.set, ← hfk, if_neg hc]
        exact nodup_keys_dictInsert h2
      · simp only [MemoryCache.set, ← hfk, if_neg hc]
        by_cases hg : dictGet fk s.cache = none
        · have hroom : ¬ s.max_size ≤ s.cache.length := fun hle => hc ⟨hle, hg⟩
          rw [length_dictInsert_new hg]
          omega
        · rw [length_dictInsert_mem hg]
          exact h3
    · simp [MemoryCache.set, ← hfk, if_neg hc]

theorem keys_filter_fst_eq {β γ : Type} {p : String → Bool}
    {l1 : Dict β} {l2 : Dict γ} (h : l1.map Prod.fst = l2.map Prod.fst) :
    (l1.filter (fun q => p q.1)).map Prod.fst
      = (l2.filter (fun q => p q.1)).map Prod.fst := by
  rw [keys_filter_fst, keys_filter_fst, h]

theorem nodup_keys_filter_fst {β : Type} {p : String → Bool} {l : Dict β}
    (h : (l.map Prod.fst).Nodup) :
    ((l.filter (fun q => p q.1)).map Prod.fst).Nodup := by
  rw [keys_filter_fst]
  exact h.filter _

/-- `removeExpired` preserves the invariant. -/
theorem removeExpired_inv {s : MemoryCache} (h : Inv s) (fk : String)
    (e : CacheEntry) :
    Inv (removeExpired s fk e) ∧ (removeExpired s fk e).max_size = s.max_size := by
  obtain ⟨h1, h2, h3⟩ := h
  refine ⟨⟨keys_dictRemove_eq h1, nodup_keys_dictRemove h2,
    le_trans length_dictRemove_le h3⟩, rfl⟩

/-- `get` preserves the invariant. -/
theorem get_inv {s : MemoryCache} (h : Inv s) (key : String)
    (pre : Option String) (t1 t2 : Nat) :
    Inv (s.get key pre t1 t2).2 ∧ (s.get key pre t1 t2).2.max_size = s.max_size := by
  obtain ⟨h1, h2, h3⟩ := h
  set fk := generate_key key pre with hfk
  rcases hg : dictGet fk s.cache with _ | e
  · simp only [MemoryCache.get, ← hfk, hg]
    exact ⟨⟨h1, h2, h3⟩, by trivial⟩
  · simp only [MemoryCache.get, ← hfk, hg]
    by_cases hexp : e.is_expired t1 = true
    · simp only [hexp, if_true]
      exact removeExpired_inv ⟨h1, h2, h3⟩ fk e
    · simp only [hexp, Bool.false_eq_true, if_false]
      rcases hacc : e.access t2 with u | p
      · exact removeExpired_inv ⟨h1, h2, h3⟩ fk e
      · obtain ⟨v', e'⟩ := p
        refine ⟨⟨keys_dictInsert_eq h1, nodup_keys_dictInsert h2, ?_⟩, by trivial⟩
        rw [length_dictInsert_mem (by rw [hg]; exact fun hc => by cases hc)]
        exact h3

/-- `delete` preserves the invariant. -/
theorem delete_inv {s : MemoryCache} (h : Inv s) (key : String)
    (pre : Option String) :
    Inv (s.delete key pre).2 ∧ (s.delete key pre).2.max_size = s.max_size := by
  obtain ⟨h1, h2, h3⟩ := h
  set fk := generate_key key pre with hfk
  rcases hg : dictGet fk s.cache with _ | e
  · simp only [MemoryCache.delete, ← hfk, hg]
    exact ⟨⟨h1, h2, h3⟩, by trivial⟩
  · simp only [MemoryCache.delete, ← hfk, hg]
    exact ⟨⟨keys_dictRemove_eq h1, nodup_keys_dictRemove h2,
      le_trans length_dictRemove_le h3⟩, by trivial⟩

/-- `exists` preserves the invariant. -/
theorem existsKey_inv {s : MemoryCache} (h : Inv s) (key : String)
    (pre : Option String) (now : Nat) :
    Inv (s.existsKey key pre now).2 ∧
      (s.existsKey key pre now).2.max_size = s.max_size := by
  obtain ⟨h1, h2, h3⟩ := h
  set fk := generate_key key pre with hfk
  rcases hg : dictGet fk s.cache with _ | e
  · simp only [MemoryCache.existsKey, ← hfk, hg]
    exact ⟨⟨h1, h2, h3⟩, by trivial⟩
  · simp only [MemoryCache.existsKey, ← hfk, hg]
    by_cases hexp : e.is_expired now = true
    · simp only [hexp, if_true]
      exact ⟨⟨keys_dictRemove_eq h1, nodup_keys_dictRemove h2,
        le_trans length_dictRemove_le h3⟩, by trivial⟩
    · simp only [hexp, Bool.false_eq_true, if_false]
      exact ⟨⟨h1, h2, h3⟩, by trivial⟩

/-- `clear` preserves the invariant. -/
theorem clear_inv {s : MemoryCache} (h : Inv s) (pre : Option String) :
    Inv (s.clear pre).2 ∧ (s.clear pre).2.max_size = s.max_size := by
  obtain ⟨h1, h2, h3⟩ := h
  rcases pre with _ | p
  · exact ⟨⟨rfl, List.nodup_nil, Nat.zero_le _⟩, rfl⟩
  · refine ⟨⟨?_, ?_, ?_⟩, rfl⟩
    · exact keys_filter_fst_eq (p := fun x => !strStartsWith x (p ++ ":")) h1
    · exact nodup_keys_filter_fst (p := fun x => !strStartsWith x (p ++ ":")) h2
    · exact le_trans (List.length_filter_le _ _) h3

/-- `cleanup_expired` preserves the invariant. -/
theorem cleanup_inv {s : MemoryCache} (h : Inv s) (now : Nat) :
    Inv (s.cleanup_expired now).2 ∧
      (s.cleanup_expired now).2.max_size = s.max_size := by
  obtain ⟨h1, h2, h3⟩ := h
  refine ⟨⟨?_, ?_, ?_⟩, rfl⟩
  · exact keys_filter_fst_eq
      (p := fun x =>
        !((s.cache.filter (fun q => q.2.is_expired now)).map Prod.fst).contains x)
      h1
  · exact nodup_keys_filter_fst
      (p := fun x =>
        !((s.cache.filter (fun q => q.2.is_expired now)).map Prod.fst).contains x)
      h2
  · exact le_trans (List.length_filter_le _ _) h3

/-- Every operation preserves the invariant and the bound. -/
theorem inv_step {s : MemoryCache} (hmax : 1  ≤ s.max_size) (h : Inv s)
    (op : CacheOp) : Inv (step s op) ∧ (step s op).max_size = s.max_size := by
  cases op with
  | opSet key v ttl pre now => exact set_inv hmax h key v ttl pre now
  | opGet key pre t1 t2 => exact get_inv h key pre t1 t2
  | opDelete key pre => exact delete_inv h key pre
  | opHas key pre now => exact existsKey_inv h key pre now
  | opClear pre => exact clear_inv h pre
  | opCleanup now => exact cleanup_inv h now

theorem inv_foldl {s : MemoryCache} (hmax : 1 ≤ s.max_size) (h : Inv s)
    (ops : List CacheOp) :
    Inv (ops.foldl step s) ∧ (ops.foldl step s).max_size = s.max_size := by
  induction ops generalizing s with
  | nil => exact ⟨h, rfl⟩
  | cons op rest ih =>
    simp only [List.foldl_cons]
    obtain ⟨h', hm'⟩ := inv_step hmax h op
    obtain ⟨hr, hmr⟩ := ih (s := step s op) (hm' ▸ hmax) h'
    exact ⟨hr, by rw [hmr, hm']⟩

/-- A fresh store satisfies the invariant, hence so does every reachable
state, and its bound is the construction bound. -/
theorem inv_runOps (n : Nat) (hn : 1 ≤ n) (ops : List CacheOp) :
    Inv (runOps n ops) ∧ (runOps n ops).max_size = n := by
  have h0 : Inv (initCache n) := ⟨rfl, List.nodup_nil, Nat.zero_le _⟩
  exact inv_foldl (s := initCache n) hn h0 ops

/-! ## Per-operation statistics bookkeeping -/

theorem evict_lru_stats (s : MemoryCache) :
    (evict_lru s).stats.hits = s.stats.hits ∧
    (evict_lru s).stats.misses = s.stats.misses := by
  rcases hao : s.access_order with _ | ⟨p, rest⟩ <;> simp [evict_lru, hao]

theorem set_stats_hm (s : MemoryCache) (key : String) (v : Val) (ttl : Nat)
    (pre : Option String) (now : Nat) :
    (s.set key v ttl pre now).stats.hits = s.stats.hits ∧
    (s.set key v ttl pre now).stats.misses = s.stats.misses := by
  by_cases hc : s.max_size ≤ s.cache.length ∧
      dictGet (generate_key key pre) s.cache = none
  · simp [MemoryCache.set, hc, (evict_lru_stats s).1, (evict_lru_stats s).2]
  · simp [MemoryCache.set, hc]

theorem step_hits_misses (s : MemoryCache) (op : CacheOp) :
    (step s op).stats.hits + (step s op).stats.misses
      = s.stats.hits + s.stats.misses +
          (match op with | .opGet _ _ _ _ => 1 | _ => 0) := by
  cases op with
  | opSet key v ttl pre now =>
    have h := set_stats_hm s key v ttl pre now
    simp [step, h.1, h.2]
  | opGet key pre t1 t2 =>
    simp only [step]
    rcases hg : dictGet (generate_key key pre) s.cache with _ | e
    · simp only [MemoryCache.get, hg]
      omega
    · simp only [MemoryCache.get, hg]
      by_cases hexp : e.is_expired t1 = true
      · simp only [hexp, if_true]
        simp [removeExpired]
        omega
      · simp only [hexp, Bool.false_eq_true, if_false]
        rcases hacc : e.access t2 with u | p
        · simp [removeExpired]
          omega
        · obtain ⟨v', e'⟩ := p
          simp
          omega
  | opDelete key pre =>
    simp only [step]
    rcases hg : dictGet (generate_key key pre) s.cache with _ | e <;>
      simp [MemoryCache.delete, hg]
  | opHas key pre now =>
    simp only [step]
    rcases hg : dictGet (generate_key key pre) s.cache with _ | e
    · simp [MemoryCache.existsKey, hg]
    · by_cases hexp : e.is_expired now = true <;>
        simp [MemoryCache.existsKey, hg, hexp]
  | opClear pre =>
    rcases pre with _ | p <;> simp [step, MemoryCache.clear]
  | opCleanup now =>
    simp [step, MemoryCache.cleanup_expired]

theorem foldl_hits_misses (s : MemoryCache) (ops : List CacheOp) :
    (ops.foldl step s).stats.hits + (ops.foldl step s).stats.misses
      = s.stats.hits + s.stats.misses + countGets ops := by
  induction ops generalizing s with
  | nil => simp [countGets]
  | cons op rest ih =>
    simp only [List.foldl_cons]
    rw [ih (step s op), step_hits_misses]
    cases op <;> simp [countGets] <;> omega

/-! ## Claim theorems -/

/-- C4: an entry stored with TTL `t` at time `c` is returned by `get`
at any time strictly before `c + t` and absent at any time strictly
after `c + t` (`is_expired` is `now > expires_at` with
`expires_at = c + t`). -/
theorem C4_ttl_correctness (s : MemoryCache) (key : String) (v : Val)
    (ttl : Nat) (pre : Option String) (c : Nat) (hpos : 0 < ttl) (t' : Nat) :
    (t' < c + ttl → ((s.set key v ttl pre c).get key pre t' t').1 = some v) ∧
    (c + ttl < t' → ((s.set key v ttl pre c).get key pre t' t').1 = none) := by
  have hget : dictGet (generate_key key pre) (s.set key v ttl pre c).cache
      = some (mkEntry v c (c + ttl)) := by
    simp only [MemoryCache.set]
    exact dictGet_dictInsert_self
  constructor
  · intro ht
    have hexp : (mkEntry v c (c + ttl)).is_expired t' = false := by
      simp only [CacheEntry.is_expired, mkEntry, decide_eq_false_iff_not]
      omega
    simp only [MemoryCache.get, hget, hexp, Bool.false_eq_true, if_false,
      CacheEntry.access]
    simp [hexp, mkEntry]
  · intro ht
    have hexp : (mkEntry v c (c + ttl)).is_expired t' = true := by
      simp only [CacheEntry.is_expired, mkEntry, decide_eq_true_eq]
      omega
    simp [MemoryCache.get, hget, hexp]

/-- Witness for C4 at a concrete store, key and times. -/
theorem C4_ttl_correctness_witness :
    (0 < 5 ∧ 3 < 0 + 5 ∧ 0 + 5 < 7) ∧
    (((initCache 10).set "k" (.vstr "v") 5 none 0).get "k" none 3 3).1
        = some (.vstr "v") ∧
    (((initCache 10).set "k" (.vstr "v") 5 none 0).get "k" none 7 7).1
        = none := by
  refine ⟨by omega, ?_, ?_⟩
  · exact (C4_ttl_correctness (initCache 10) "k" (.vstr "v") 5 none 0
      (by omega) 3).1 (by omega)
  · exact (C4_ttl_correctness (initCache 10) "k" (.vstr "v") 5 none 0
      (by omega) 7).2 (by omega)

/-- C2: a `get` that finds an entry already expired at the first clock
read, or one that expires between the expiry check and the `access`
call, returns absent (never the "entry expired" error), removes the
entry, counts one miss and one expiration, and subtracts the entry's
recorded size; both paths land in the identical `removeExpired` state. -/
theorem C2_expired_get_is_miss (s : MemoryCache) (key : String)
    (pre : Option String) (t1 t2 : Nat) (e : CacheEntry)
    (hget : dictGet (generate_key key pre) s.cache = some e)
    (hexp : e.expires_at < t1 ∨ e.expires_at < t2) :
    (s.get key pre t1 t2).1 = none ∧
    (s.get key pre t1 t2).2 = removeExpired s (generate_key key pre) e ∧
    dictGet (generate_key key pre) (s.get key pre t1 t2).2.cache = none ∧
    (s.get key pre t1 t2).2.stats.misses = s.stats.misses + 1 ∧
    (s.get key pre t1 t2).2.stats.expirations = s.stats.expirations + 1 ∧
    (s.get key pre t1 t2).2.stats.total_size_bytes
      = s.stats.total_size_bytes - (e.size_bytes : Int) := by
  have hres : (s.get key pre t1 t2)
      = (none, removeExpired s (generate_key key pre) e) := by
    by_cases h1 : e.is_expired t1 = true
    · simp [MemoryCache.get, hget, h1]
    · have h2 : e.expires_at < t2 := by
        rcases hexp with h | h
        · exact absurd (by simpa [CacheEntry.is_expired] using h) h1
        · exact h
      have hacc : e.access t2 = .error () := by
        simp [CacheEntry.access, CacheEntry.is_expired, h2]
      simp [MemoryCache.get, hget, h1, hacc]
  rw [hres]
  refine ⟨rfl, rfl, ?_, rfl, rfl, rfl⟩
  simp only [removeExpired]
  rw [dictGet_dictRemove]
  simp

/-- Witness for C2: a store holding a single entry with TTL 5, read at
time 6. -/
theorem C2_expired_get_is_miss_witness :
    (dictGet (generate_key "k" none)
        (runOps 10 [.opSet "k" (.vstr "v") 5 none 0]).cache
      = some (mkEntry (.vstr "v") 0 5) ∧
     (mkEntry (.vstr "v") 0 5).expires_at < 6) ∧
    ((runOps 10 [.opSet "k" (.vstr "v") 5 none 0]).get "k" none 6 6).1
      = none ∧
    ((runOps 10 [.opSet "k" (.vstr "v") 5 none 0]).get "k" none 6 6).2.stats.misses
      = (runOps 10 [.opSet "k" (.vstr "v") 5 none 0]).stats.misses + 1 := by
  have h := C2_expired_get_is_miss (runOps 10 [.opSet "k" (.vstr "v") 5 none 0])
    "k" none 6 6 (mkEntry (.vstr "v") 0 5) (by decide) (Or.inl (by decide))
  exact ⟨⟨by decide, by decide⟩, h.1, h.2.2.2.1⟩

/-- C3 (falsified by the code): `set` on an already-present key adds the
new entry's size to `total_size_bytes` without subtracting the
overwritten entry's size, so after overwriting a 5-byte value with
another 5-byte value under the same key the running total is 10 while
the entries actually stored sum to 5. -/
theorem C3_overwrite_size_drift :
    (runOps 10 [.opSet "a" (.vstr "hello") 60 none 0,
                .opSet "a" (.vstr "world") 60 none 1]).stats.total_size_bytes
      = 10 ∧
    ((runOps 10 [.opSet "a" (.vstr "hello") 60 none 0,
                 .opSet "a" (.vstr "world") 60 none 1]).cache.map
        (fun q => (q.2.size_bytes : Int))).sum = 5 ∧
    (runOps 10 [.opSet "a" (.vstr "hello") 60 none 0,
                .opSet "a" (.vstr "world") 60 none 1]).stats.total_size_bytes
      ≠ ((runOps 10 [.opSet "a" (.vstr "hello") 60 none 0,
                     .opSet "a" (.vstr "world") 60 none 1]).cache.map
          (fun q => (q.2.size_bytes : Int))).sum := by
  refine ⟨by decide, by decide, by decide⟩

/-- C8: every `get` increments exactly one of hits/misses by one, so
over any trace `hits + misses` equals the number of `get` calls, and
`hit_rate` is `hits / (hits + misses) * 100` (0 with no requests). -/
theorem C8_hit_miss_accounting (n : Nat) (ops : List CacheOp) :
    ((runOps n ops).stats.hits + (runOps n ops).stats.misses = countGets ops) ∧
    (∀ key pre t1 t2,
      (((runOps n ops).get key pre t1 t2).2.stats.hits
          = (runOps n ops).stats.hits + 1 ∧
       ((runOps n ops).get key pre t1 t2).2.stats.misses
          = (runOps n ops).stats.misses) ∨
      (((runOps n ops).get key pre t1 t2).2.stats.hits
          = (runOps n ops).stats.hits ∧
       ((runOps n ops).get key pre t1 t2).2.stats.misses
          = (runOps n ops).stats.misses + 1)) ∧
    (runOps n ops).stats.hit_rate
      = (if countGets ops = 0 then 0
         else ((runOps n ops).stats.hits : ℚ) / (countGets ops : ℚ) * 100) := by
  have hsum : (runOps n ops).stats.hits + (runOps n ops).stats.misses
      = countGets ops := by
    have h := foldl_hits_misses (initCache n) ops
    simpa [runOps, initCache, CacheStats.init] using h
  refine ⟨hsum, ?_, ?_⟩
  · intro key pre t1 t2
    set s := runOps n ops with hs
    rcases hg : dictGet (generate_key key pre) s.cache with _ | e
    · right
      simp [MemoryCache.get, hg]
    · by_cases hexp : e.is_expired t1 = true
      · right
        simp [MemoryCache.get, hg, hexp, removeExpired]
      · rcases hacc : e.access t2 with u | p
        · right
          simp [MemoryCache.get, hg, hexp, hacc, removeExpired]
        · left
          obtain ⟨v', e'⟩ := p
          simp [MemoryCache.get, hg, hexp, hacc]
  · rw [CacheStats.hit_rate, hsum]
    by_cases h0 : countGets ops = 0
    · simp [h0]
    · rw [if_neg h0, if_neg h0]
      have : ((runOps n ops).stats.hits : ℚ) + ((runOps n ops).stats.misses : ℚ)
          = (countGets ops : ℚ) := by
        rw [← Nat.cast_add, hsum]
      rw [this]

/-! ## Prefix namespacing (C7) -/

theorem str_append_cancel_right {a b c : String} (h : a ++ c = b ++ c) :
    a = b := by
  have hd := congrArg String.data h
  simp only [String.data_append] at hd
  exact String.ext (List.append_cancel_right hd)

/-- Distinct prefixes always derive distinct full keys for the same base
key (an empty prefix is dropped by Python truthiness, but the result is
still shorter than any prefixed key). -/
theorem generate_key_ne {p1 p2 k : String} (hne : p1 ≠ p2) :
    generate_key k (some p1) ≠ generate_key k (some p2) := by
  have hlen : ∀ p : String, p ≠ "" → k.length < (p ++ ":" ++ k).length := by
    intro p _
    rw [String.length_append, String.length_append]
    have : (":" : String).length = 1 := rfl
    omega
  by_cases h1 : p1 = ""
  · have h2 : ¬ p2 = "" := fun hc => hne (h1.trans hc.symm)
    simp only [generate_key, if_pos h1, if_neg h2]
    intro hc
    have := hlen p2 h2
    rw [← hc] at this
    omega
  · by_cases h2 : p2 = ""
    · simp only [generate_key, if_neg h1, if_pos h2]
      intro hc
      have := hlen p1 h1
      rw [hc] at this
      omega
    · simp only [generate_key, if_neg h1, if_neg h2]
      intro hc
      have hpc : p1 ++ ":" = p2 ++ ":" := str_append_cancel_right hc
      exact hne (str_append_cancel_right hpc)

/-- `set` under no capacity pressure: the entry map gains exactly the
new binding and the bound is unchanged. -/
theorem set_cache_no_evict {s : MemoryCache} {k : String} {v : Val}
    {ttl : Nat} {pre : Option String} {now : Nat}
    (h : ¬ (s.max_size ≤ s.cache.length ∧
            dictGet (generate_key k pre) s.cache = none)) :
    (s.set k v ttl pre now).cache
      = dictInsert (generate_key k pre) (mkEntry v now (now + ttl)) s.cache ∧
    (s.set k v ttl pre now).max_size = s.max_size := by
  constructor <;> simp [MemoryCache.set, if_neg h]

/-- C7 (counterexample to the unqualified claim): with the nested
prefixes `p1 = "a"` and `p2 = "a:b"`, the full key `"a:b:k"` stored
under `p2` starts with `"a:"`, so `clear` with prefix `"a"` removes the
entry stored under prefix `"a:b"`. -/
theorem C7_prefix_isolation_cex :
    ("a" : String) ≠ "a:b" ∧
    dictGet "a:b:k"
        (runOps 10 [.opSet "k" (.vstr "x") 60 (some "a") 0,
                    .opSet "k" (.vstr "y") 60 (some "a:b") 1]).cache
      = some (mkEntry (.vstr "y") 1 61) ∧
    dictGet "a:b:k"
        ((runOps 10 [.opSet "k" (.vstr "x") 60 (some "a") 0,
                     .opSet "k" (.vstr "y") 60 (some "a:b") 1]).clear
            (some "a")).2.cache
      = none := by
  refine ⟨by decide, by decide, by decide⟩

/-- C7 (amended): distinct prefixes always store under distinct full
keys — setting the same base key under two prefixes (with capacity
available) yields two independent entries, neither overwriting the
other — and `clear` with prefix `p1` leaves an entry stored under
prefix `p2` untouched provided that entry's full key does not start
with `p1 + ":"` (which nested prefixes like `p2 = p1 + ":…"` violate). -/
theorem C7_prefix_isolation_amended (p1 p2 k : String) (hne : p1 ≠ p2)
    (s : MemoryCache) (v1 v2 : Val) (ttl1 ttl2 n1 n2 : Nat)
    (hroom : s.cache.length + 1 < s.max_size)
    (hf1 : dictGet (generate_key k (some p1)) s.cache = none)
    (hf2 : dictGet (generate_key k (some p2)) s.cache = none) :
    generate_key k (some p1) ≠ generate_key k (some p2) ∧
    (dictGet (generate_key k (some p1))
        ((s.set k v1 ttl1 (some p1) n1).set k v2 ttl2 (some p2) n2).cache
      = some (mkEntry v1 n1 (n1 + ttl1)) ∧
     dictGet (generate_key k (some p2))
        ((s.set k v1 ttl1 (some p1) n1).set k v2 ttl2 (some p2) n2).cache
      = some (mkEntry v2 n2 (n2 + ttl2))) ∧
    (∀ s' : MemoryCache,
      ¬ (strStartsWith (generate_key k (some p2)) (p1 ++ ":") = true) →
      dictGet (generate_key k (some p2)) (s'.clear (some p1)).2.cache
        = dictGet (generate_key k (some p2)) s'.cache) := by
  have hkey := generate_key_ne (k := k) hne
  have hc1 : ¬ (s.max_size ≤ s.cache.length ∧
      dictGet (generate_key k (some p1)) s.cache = none) := by
    intro hc
    omega
  obtain ⟨h1c, h1m⟩ := @set_cache_no_evict s k v1 ttl1 (some p1) n1 hc1
  have hlen1 : (s.set k v1 ttl1 (some p1) n1).cache.length
      = s.cache.length + 1 := by
    rw [h1c, length_dictInsert_new hf1]
  have hc2 : ¬ ((s.set k v1 ttl1 (some p1) n1).max_size
        ≤ (s.set k v1 ttl1 (some p1) n1).cache.length ∧
      dictGet (generate_key k (some p2))
        (s.set k v1 ttl1 (some p1) n1).cache = none) := by
    intro hc
    rw [h1m, hlen1] at hc
    omega
  obtain ⟨h2c, _⟩ :=
    @set_cache_no_evict (s.set k v1 ttl1 (some p1) n1) k v2 ttl2 (some p2) n2 hc2
  refine ⟨hkey, ⟨?_, ?_⟩, ?_⟩
  · rw [h2c, dictGet_dictInsert_ne hkey, h1c, dictGet_dictInsert_self]
  · rw [h2c, dictGet_dictInsert_self]
  · intro s' hnp
    have hx : strStartsWith (generate_key k (some p2)) (p1 ++ ":") = false := by
      cases hv : strStartsWith (generate_key k (some p2)) (p1 ++ ":") with
      | false => rfl
      | true => exact absurd hv hnp
    have hcc : (s'.clear (some p1)).2.cache
        = s'.cache.filter (fun q => !strStartsWith q.1 (p1 ++ ":")) := rfl
    rw [hcc, dictGet_filter_key (p := fun x => !strStartsWith x (p1 ++ ":")),
      hx]
    simp

/-- Witness for C7 (amended) at the flat prefixes `"p"` and `"q"`:
both entries present after the two sets, and clearing `"p"` leaves the
entry under `"q"` in place. -/
theorem C7_prefix_isolation_amended_witness :
    (("p" : String) ≠ "q" ∧
     (initCache 10).cache.length + 1 < (initCache 10).max_size ∧
     dictGet (generate_key "k" (some "p")) (initCache 10).cache = none ∧
     dictGet (generate_key "k" (some "q")) (initCache 10).cache = none ∧
     ¬ (strStartsWith (generate_key "k" (some "q")) ("p" ++ ":") = true)) ∧
    generate_key "k" (some "p") ≠ generate_key "k" (some "q") ∧
    dictGet (generate_key "k" (some "q"))
        (((initCache 10).set "k" (.vstr "x") 60 (some "p") 0).set
            "k" (.vstr "y") 60 (some "q") 1).cache
      = some (mkEntry (.vstr "y") 1 61) ∧
    dictGet (generate_key "k" (some "q"))
        ((((initCache 10).set "k" (.vstr "x") 60 (some "p") 0).set
            "k" (.vstr "y") 60 (some "q") 1).clear (some "p")).2.cache
      = dictGet (generate_key "k" (some "q"))
          (((initCache 10).set "k" (.vstr "x") 60 (some "p") 0).set
              "k" (.vstr "y") 60 (some "q") 1).cache := by
  have h := C7_prefix_isolation_amended "p" "q" "k" (by decide) (initCache 10)
    (.vstr "x") (.vstr "y") 60 60 0 1 (by decide) (by decide) (by decide)
  exact ⟨⟨by decide, by decide, by decide, by decide, by decide⟩,
    h.1, h.2.1.2,
    h.2.2 (((initCache 10).set "k" (.vstr "x") 60 (some "p") 0).set
      "k" (.vstr "y") 60 (some "q") 1) (by decide)⟩

/-! ## Key derivation stability (C9) -/

theorem dictGet_some_mem {β : Type} {k : String} {v : β} {l : Dict β}
    (h : dictGet k l = some v) : (k, v) ∈ l := by
  induction l with
  | nil => simp [dictGet] at h
  | cons q rest ih =>
    obtain ⟨k', v'⟩ := q
    by_cases hk : k' = k
    · subst hk
      simp [dictGet] at h
      simp [h]
    · simp only [dictGet, if_neg hk] at h
      exact List.mem_cons_of_mem _ (ih h)

theorem dictGet_of_mem_nodup {β : Type} {k : String} {v : β} {l : Dict β}
    (hnd : (l.map Prod.fst).Nodup) (h : (k, v) ∈ l) : dictGet k l = some v := by
  induction l with
  | nil => simp at h
  | cons q rest ih =>
    obtain ⟨k', v'⟩ := q
    simp only [List.map_cons, List.nodup_cons] at hnd
    rcases List.mem_cons.1 h with h1 | h1
    · obtain ⟨hk, hv⟩ := Prod.mk.injEq .. ▸ h1
      simp [dictGet, hk.symm, hv]
    · by_cases hk : k' = k
      · subst hk
        have : k' ∈ rest.map Prod.fst :=
          List.mem_map_of_mem Prod.fst h1
        exact absurd this hnd.1
      · simp only [dictGet, if_neg hk]
        exact ih hnd.2 h1

/-- On dictionaries with duplicate-free keys, lookup only depends on the
multiset of items. -/
theorem dictGet_eq_of_perm {β : Type} {l1 l2 : Dict β} (hp : l1.Perm l2)
    (hnd : (l1.map Prod.fst).Nodup) (k : String) :
    dictGet k l1 = dictGet k l2 := by
  have hnd2 : (l2.map Prod.fst).Nodup := ((hp.map Prod.fst).nodup_iff).1 hnd
  rcases h1 : dictGet k l1 with _ | v
  · have hk1 := dictGet_eq_none.1 h1
    have hk2 : k ∉ l2.map Prod.fst := fun hc =>
      hk1 ((hp.map Prod.fst).mem_iff.2 hc)
    exact (dictGet_eq_none.2 hk2).symm
  · have hmem : (k, v) ∈ l2 := hp.mem_iff.1 (dictGet_some_mem h1)
    exact (dictGet_of_mem_nodup hnd2 hmem).symm

/-- C9: the default key derivation is keying-stable — for two kwargs
dictionaries holding the same bindings (a permutation of each other,
keys duplicate-free as in any Python kwargs dict), the derived key is
identical regardless of the order the named arguments were supplied in,
for every digest function `h` (hence for the truncated SHA-256 used by
the source). -/
theorem C9_keying_stable (h : String → String) (fname : String)
    (args : List Val) (kw1 kw2 : List (String × Val))
    (hnd : (kw1.map Prod.fst).Nodup) (hperm : kw1.Perm kw2) :
    default_cache_key h fname args kw1 = default_cache_key h fname args kw2 := by
  have hkperm : (kw1.map Prod.fst).Perm (kw2.map Prod.fst) :=
    hperm.map Prod.fst
  have hsort : (kw1.map Prod.fst).mergeSort = (kw2.map Prod.fst).mergeSort := by
    apply List.eq_of_perm_of_sorted (r := (· ≤ ·))
    · exact ((List.mergeSort_perm _ _).trans hkperm).trans
        (List.mergeSort_perm _ _).symm
    · exact List.sorted_mergeSort' _
    · exact List.sorted_mergeSort' _
  have hlook : ∀ k : String, dictGet k kw1 = dictGet k kw2 :=
    dictGet_eq_of_perm hperm hnd
  have hitems : sortedItems kw1 = sortedItems kw2 := by
    simp only [sortedItems, hsort]
    apply List.map_congr_left
    intro k _
    rw [hlook k]
  simp only [default_cache_key, cache_key_from_args, cache_key_data, hitems]

/-- Witness for C9: the kwargs `{x: 1, y: 2}` supplied in both orders. -/
theorem C9_keying_stable_witness :
    (([("x", Val.vint 1), ("y", Val.vint 2)].map Prod.fst).Nodup ∧
     [("x", Val.vint 1), ("y", Val.vint 2)].Perm
       [("y", Val.vint 2), ("x", Val.vint 1)]) ∧
    default_cache_key (fun s => s) "add" []
        [("x", Val.vint 1), ("y", Val.vint 2)]
      = default_cache_key (fun s => s) "add" []
          [("y", Val.vint 2), ("x", Val.vint 1)] := by
  refine ⟨⟨by decide, by decide⟩, ?_⟩
  exact C9_keying_stable (fun s => s) "add" []
    [("x", Val.vint 1), ("y", Val.vint 2)]
    [("y", Val.vint 2), ("x", Val.vint 1)] (by decide) (by decide)

/-! ## Cache-aside wrapper behavior (C5, C6, C10) -/

theorem str_append_cancel_left {a b c : String} (h : a ++ b = a ++ c) :
    b = c := by
  have hd := congrArg String.data h
  simp only [String.data_append] at hd
  exact String.ext (List.append_cancel_left hd)

/-- Two distinct base keys derive distinct full keys under the same
prefix. -/
theorem generate_key_inj {k1 k2 : String} (pre : Option String)
    (hne : k1 ≠ k2) : generate_key k1 pre ≠ generate_key k2 pre := by
  rcases pre with _ | p
  · exact hne
  · by_cases hp : p = ""
    · simpa [generate_key, hp] using hne
    · simp only [generate_key, if_neg hp]
      intro hc
      exact hne (str_append_cancel_left hc)

/-- `set` never creates a binding for an unrelated absent key (eviction
only removes keys). -/
theorem dictGet_set_ne {s : MemoryCache} {k : String} {v : Val} {ttl : Nat}
    {pre : Option String} {now : Nat} {k' : String}
    (hne : k' ≠ generate_key k pre) (h : dictGet k' s.cache = none) :
    dictGet k' (s.set k v ttl pre now).cache = none := by
  have hcache : (s.set k v ttl pre now).cache
      = dictInsert (generate_key k pre) (mkEntry v now (now + ttl))
          (if s.max_size ≤ s.cache.length ∧
              dictGet (generate_key k pre) s.cache = none
           then evict_lru s else s).cache := rfl
  rw [hcache, dictGet_dictInsert_ne hne]
  by_cases hc : s.max_size ≤ s.cache.length ∧
      dictGet (generate_key k pre) s.cache = none
  · rw [if_pos hc]
    rcases hao : s.access_order with _ | ⟨p, rest⟩
    · simpa [evict_lru, hao] using h
    · simp only [evict_lru, hao]
      rw [dictGet_dictRemove]
      by_cases h3 : k' = (lruPair p rest).1 <;> simp [h3, h]
  · rw [if_neg hc]
    exact h

/-- The wrapper on a clean miss with a succeeding fetch: the fetch runs
(count + 1), its result is returned, and it is stored under the derived
key on top of the miss-counted state. -/
theorem wrapper_miss_ok {α ε : Type} {keyFn : α → String} {pre : Option String}
    {ttl : Nat} {f : α → Except ε Val} {s : MemoryCache} {cnt : Nat} {a : α}
    {now : Nat} {r : Val}
    (hmiss : dictGet (generate_key (keyFn a) pre) s.cache = none)
    (hok : f a = .ok r) :
    sync_wrapper none keyFn pre ttl f s cnt a now
      = (.ok r,
         ({ s with stats := { s.stats with misses := s.stats.misses + 1 } }).set
           (keyFn a) r ttl pre now,
         cnt + 1) := by
  simp [sync_wrapper, MemoryCache.get, hmiss, hok]

/-- The wrapper on a clean miss with a failing fetch: the fetch runs
(count + 1), the failure is returned unchanged, and nothing is stored —
the resulting store differs from the original only in the miss
counter. -/
theorem wrapper_miss_error {α ε : Type} {keyFn : α → String}
    {pre : Option String} {ttl : Nat} {f : α → Except ε Val} {s : MemoryCache}
    {cnt : Nat} {a : α} {now : Nat} {err : ε}
    (hmiss : dictGet (generate_key (keyFn a) pre) s.cache = none)
    (herr : f a = .error err) :
    sync_wrapper none keyFn pre ttl f s cnt a now
      = (.error err,
         { s with stats := { s.stats with misses := s.stats.misses + 1 } },
         cnt + 1) := by
  simp [sync_wrapper, MemoryCache.get, hmiss, herr]

/-- The wrapper on a fresh entry holding a non-`None` value: the cached
value is returned and the fetch does not run. -/
theorem wrapper_hit {α ε : Type} {keyFn : α → String} {pre : Option String}
    {ttl : Nat} {f : α → Except ε Val} {s : MemoryCache} {cnt : Nat} {a : α}
    {now : Nat} {e : CacheEntry}
    (hg : dictGet (generate_key (keyFn a) pre) s.cache = some e)
    (hv : ¬ e.expires_at < now) (hnn : e.value ≠ .vnone) :
    sync_wrapper none keyFn pre ttl f s cnt a now
      = (.ok e.value,
         { s with
           cache := dictInsert (generate_key (keyFn a) pre)
             { e with access_count := e.access_count + 1
                      last_accessed := some now }
             s.cache
           access_order :=
             dictInsert (generate_key (keyFn a) pre) now s.access_order
           stats := { s.stats with hits := s.stats.hits + 1 } },
         cnt) := by
  have hexp : e.is_expired now = false := by
    simp only [CacheEntry.is_expired, decide_eq_false_iff_not]
    omega
  have hacc : e.access now
      = .ok (e.value, { e with access_count := e.access_count + 1
                               last_accessed := some now }) := by
    simp [CacheEntry.access, hexp]
  cases hval : e.value with
  | vnone => exact absurd hval hnn
  | vstr str =>
    simp [sync_wrapper, MemoryCache.get, hg, hexp, hacc, hval]
  | vint n =>
    simp [sync_wrapper, MemoryCache.get, hg, hexp, hacc, hval]

/-- The wrapper always invokes the fetch when the stored value under the
derived key is `None`, whether the entry is still fresh or expired. -/
theorem wrapper_vnone_invokes {α ε : Type} {keyFn : α → String}
    {pre : Option String} {ttl : Nat} {f : α → Except ε Val} {s : MemoryCache}
    {cnt : Nat} {a : α} {now : Nat} {e : CacheEntry}
    (hg : dictGet (generate_key (keyFn a) pre) s.cache = some e)
    (hval : e.value = .vnone) :
    (sync_wrapper none keyFn pre ttl f s cnt a now).2.2 = cnt + 1 := by
  by_cases hexp : e.is_expired now = true
  · rcases hf : f a with err | r <;>
      simp [sync_wrapper, MemoryCache.get, hg, hexp, hf]
  · have hacc : e.access now
        = .ok (e.value, { e with access_count := e.access_count + 1
                                 last_accessed := some now }) := by
      simp only [Bool.not_eq_true] at hexp
      simp [CacheEntry.access, hexp]
    rcases hf : f a with err | r <;>
      simp [sync_wrapper, MemoryCache.get, hg, hexp, hacc, hval, hf]

/-- A miss always invokes the fetch, succeeding or not. -/
theorem wrapper_miss_cnt {α ε : Type} {keyFn : α → String}
    {pre : Option String} {ttl : Nat} {f : α → Except ε Val} {s : MemoryCache}
    {cnt : Nat} {a : α} {now : Nat}
    (hmiss : dictGet (generate_key (keyFn a) pre) s.cache = none) :
    (sync_wrapper none keyFn pre ttl f s cnt a now).2.2 = cnt + 1 := by
  rcases hf : f a with err | r
  · rw [wrapper_miss_error hmiss hf]
  · rw [wrapper_miss_ok hmiss hf]

/-- C5: cache-aside deduplication — starting from a store holding
neither derived key, a first call fetches and caches, a second call
with identical arguments (within the TTL, the fetched value not being
`None`) is served from the cache without invoking the fetch again, and
a third call with different arguments (distinct derived key) fetches:
the underlying call count is 2, not 3. -/
theorem C5_cache_aside_dedup {α ε : Type} (keyFn : α → String)
    (pre : Option String) (ttl : Nat) (f : α → Except ε Val)
    (s0 : MemoryCache) (a1 a3 : α) (n1 n2 n3 : Nat) (r1 : Val)
    (hf1 : dictGet (generate_key (keyFn a1) pre) s0.cache = none)
    (hf3 : dictGet (generate_key (keyFn a3) pre) s0.cache = none)
    (hkne : keyFn a1 ≠ keyFn a3)
    (hok : f a1 = .ok r1) (hnn : r1 ≠ .vnone)
    (hvalid : ¬ n1 + ttl < n2)
    (c1 c2 c3 : Except ε Val × MemoryCache × Nat)
    (h1 : c1 = sync_wrapper none keyFn pre ttl f s0 0 a1 n1)
    (h2 : c2 = sync_wrapper none keyFn pre ttl f c1.2.1 c1.2.2 a1 n2)
    (h3 : c3 = sync_wrapper none keyFn pre ttl f c2.2.1 c2.2.2 a3 n3) :
    c1.1 = .ok r1 ∧ c1.2.2 = 1 ∧ c2.1 = .ok r1 ∧ c2.2.2 = 1 ∧
    c3.2.2 = 2 := by
  have hc1 : c1 = (.ok r1,
      ({ s0 with stats := { s0.stats with
          misses := s0.stats.misses + 1 } }).set (keyFn a1) r1 ttl pre n1,
      1) := by
    rw [h1, wrapper_miss_ok hf1 hok]
  set s0' : MemoryCache :=
    { s0 with stats := { s0.stats with misses := s0.stats.misses + 1 } }
    with hs0'
  set s1 : MemoryCache := s0'.set (keyFn a1) r1 ttl pre n1 with hs1
  have hget1 : dictGet (generate_key (keyFn a1) pre) s1.cache
      = some (mkEntry r1 n1 (n1 + ttl)) := by
    have hc : s1.cache
        = dictInsert (generate_key (keyFn a1) pre) (mkEntry r1 n1 (n1 + ttl))
            (if s0'.max_size ≤ s0'.cache.length ∧
                dictGet (generate_key (keyFn a1) pre) s0'.cache = none
             then evict_lru s0' else s0').cache := rfl
    rw [hc]
    exact dictGet_dictInsert_self
  have hc2 : c2 = (.ok (mkEntry r1 n1 (n1 + ttl)).value,
      { s1 with
        cache := dictInsert (generate_key (keyFn a1) pre)
          { mkEntry r1 n1 (n1 + ttl) with
              access_count := (mkEntry r1 n1 (n1 + ttl)).access_count + 1
              last_accessed := some n2 }
          s1.cache
        access_order :=
          dictInsert (generate_key (keyFn a1) pre) n2 s1.access_order
        stats := { s1.stats with hits := s1.stats.hits + 1 } },
      1) := by
    rw [h2, hc1]
    exact wrapper_hit hget1 (by simpa [mkEntry] using hvalid)
      (by simpa [mkEntry] using hnn)
  have hne31 : generate_key (keyFn a3) pre ≠ generate_key (keyFn a1) pre :=
    generate_key_inj pre (Ne.symm hkne)
  have h3s1 : dictGet (generate_key (keyFn a3) pre) s1.cache = none := by
    rw [hs1]
    exact dictGet_set_ne hne31 hf3
  have h3s2 : dictGet (generate_key (keyFn a3) pre) c2.2.1.cache = none := by
    rw [hc2]
    exact (dictGet_dictInsert_ne hne31).trans h3s1
  have hcnt3 : c3.2.2 = c2.2.2 + 1 := by
    rw [h3]
    exact wrapper_miss_cnt h3s2
  refine ⟨by rw [hc1], by rw [hc1], by rw [hc2]; simp [mkEntry],
    by rw [hc2], ?_⟩
  rw [hcnt3, hc2]

/-- Witness for C5: identity key function, a fetch echoing its string
argument, called on `"a"`, `"a"` again, then `"b"`. -/
theorem C5_cache_aside_dedup_witness :
    (dictGet (generate_key "a" none) (initCache 10).cache = none ∧
      ("a" : String) ≠ "b" ∧ Val.vstr "a" ≠ Val.vnone ∧ ¬ (0 + 60 < 1)) ∧
    ((sync_wrapper none (fun s : String => s) none 60
        echoFetch (initCache 10) 0 "a" 0).1
      = .ok (.vstr "a") ∧
     (sync_wrapper none (fun s : String => s) none 60
        echoFetch (initCache 10) 0 "a" 0).2.2 = 1 ∧
     (sync_wrapper none (fun s : String => s) none 60
        echoFetch
        (sync_wrapper none (fun s : String => s) none 60
          echoFetch (initCache 10) 0 "a" 0).2.1
        (sync_wrapper none (fun s : String => s) none 60
          echoFetch (initCache 10) 0 "a" 0).2.2 "a" 1).1
      = .ok (.vstr "a") ∧
     (sync_wrapper none (fun s : String => s) none 60
        echoFetch
        (sync_wrapper none (fun s : String => s) none 60
          echoFetch (initCache 10) 0 "a" 0).2.1
        (sync_wrapper none (fun s : String => s) none 60
          echoFetch (initCache 10) 0 "a" 0).2.2 "a" 1).2.2
      = 1 ∧
     (sync_wrapper none (fun s : String => s) none 60
        echoFetch
        (sync_wrapper none (fun s : String => s) none 60
          echoFetch
          (sync_wrapper none (fun s : String => s) none 60
            echoFetch (initCache 10) 0 "a" 0).2.1
          (sync_wrapper none (fun s : String => s) none 60
            echoFetch (initCache 10) 0 "a" 0).2.2 "a" 1).2.1
        (sync_wrapper none (fun s : String => s) none 60
          echoFetch
          (sync_wrapper none (fun s : String => s) none 60
            echoFetch (initCache 10) 0 "a" 0).2.1
          (sync_wrapper none (fun s : String => s) none 60
            echoFetch (initCache 10) 0 "a" 0).2.2 "a" 1).2.2
        "b" 2).2.2 = 2) := by
  refine ⟨⟨by decide, by decide, by decide, by decide⟩, ?_⟩
  exact C5_cache_aside_dedup (fun s : String => s) none 60
    echoFetch (initCache 10) "a" "b" 0 1 2 (.vstr "a")
    (by decide) (by decide) (by decide) rfl (by decide) (by decide)
    _ _ _ rfl rfl rfl

/-- C6: a failing fetch propagates unchanged, nothing is stored under
the derived key, and an identical later call invokes the fetch again
(failures are never cached). -/
theorem C6_no_negative_caching {α ε : Type} (keyFn : α → String)
    (pre : Option String) (ttl : Nat) (f : α → Except ε Val)
    (s0 : MemoryCache) (cnt : Nat) (a : α) (n1 n2 : Nat) (err : ε)
    (hmiss : dictGet (generate_key (keyFn a) pre) s0.cache = none)
    (herr : f a = .error err)
    (c1 c2 : Except ε Val × MemoryCache × Nat)
    (h1 : c1 = sync_wrapper none keyFn pre ttl f s0 cnt a n1)
    (h2 : c2 = sync_wrapper none keyFn pre ttl f c1.2.1 c1.2.2 a n2) :
    c1.1 = .error err ∧
    dictGet (generate_key (keyFn a) pre) c1.2.1.cache = none ∧
    c1.2.2 = cnt + 1 ∧
    c2.1 = .error err ∧ c2.2.2 = cnt + 2 := by
  have hc1 : c1 = (.error err,
      { s0 with stats := { s0.stats with misses := s0.stats.misses + 1 } },
      cnt + 1) := by
    rw [h1, wrapper_miss_error hmiss herr]
  have hmiss' : dictGet (generate_key (keyFn a) pre)
      ({ s0 with stats := { s0.stats with
          misses := s0.stats.misses + 1 } } : MemoryCache).cache = none := hmiss
  have hc2 : c2 = (.error err,
      { s0 with stats := { s0.stats with
          misses := s0.stats.misses + 1 + 1 } },
      cnt + 1 + 1) := by
    rw [h2, hc1, wrapper_miss_error hmiss' herr]
  exact ⟨by rw [hc1], by rw [hc1]; exact hmiss, by rw [hc1],
    by rw [hc2], by rw [hc2]⟩

/-- Witness for C6: an always-failing fetch called twice on the same
argument against a fresh store. -/
theorem C6_no_negative_caching_witness :
    (dictGet (generate_key "a" none) (initCache 10).cache = none) ∧
    ((sync_wrapper none (fun s : String => s) none 60
        (fun _ => (.error () : Except Unit Val)) (initCache 10) 0 "a" 0).1
      = .error () ∧
     dictGet (generate_key "a" none)
        (sync_wrapper none (fun s : String => s) none 60
          (fun _ => (.error () : Except Unit Val))
          (initCache 10) 0 "a" 0).2.1.cache = none ∧
     (sync_wrapper none (fun s : String => s) none 60
        (fun _ => (.error () : Except Unit Val)) (initCache 10) 0 "a" 0).2.2
      = 0 + 1 ∧
     (sync_wrapper none (fun s : String => s) none 60
        (fun _ => (.error () : Except Unit Val))
        (sync_wrapper none (fun s : String => s) none 60
          (fun _ => (.error () : Except Unit Val))
          (initCache 10) 0 "a" 0).2.1
        (sync_wrapper none (fun s : String => s) none 60
          (fun _ => (.error () : Except Unit Val))
          (initCache 10) 0 "a" 0).2.2 "a" 1).1 = .error () ∧
     (sync_wrapper none (fun s : String => s) none 60
        (fun _ => (.error () : Except Unit Val))
        (sync_wrapper none (fun s : String => s) none 60
          (fun _ => (.error () : Except Unit Val))
          (initCache 10) 0 "a" 0).2.1
        (sync_wrapper none (fun s : String => s) none 60
          (fun _ => (.error () : Except Unit Val))
          (initCache 10) 0 "a" 0).2.2 "a" 1).2.2 = 0 + 2) := by
  refine ⟨by decide, ?_⟩
  exact C6_no_negative_caching (fun s : String => s) none 60
    (fun _ => (.error () : Except Unit Val)) (initCache 10) 0 "a" 0 1 ()
    (by decide) rfl _ _ rfl rfl

/-- C10: a fetched Python `None` is written to the store, but a stored
`None` is never served — any call finding an entry whose value is
`None` under its derived key (fresh or expired) invokes the fetch
again. -/
theorem C10_none_results_not_served {α ε : Type} (keyFn : α → String)
    (pre : Option String) (ttl : Nat) (f : α → Except ε Val) (a : α)
    (s0 : MemoryCache) (cnt n : Nat)
    (hmiss : dictGet (generate_key (keyFn a) pre) s0.cache = none)
    (hf : f a = .ok .vnone) :
    (dictGet (generate_key (keyFn a) pre)
        (sync_wrapper none keyFn pre ttl f s0 cnt a n).2.1.cache
      = some (mkEntry .vnone n (n + ttl)) ∧
     (mkEntry .vnone n (n + ttl)).value = .vnone) ∧
    (sync_wrapper none keyFn pre ttl f s0 cnt a n).2.2 = cnt + 1 ∧
    (∀ (s' : MemoryCache) (w m : Nat) (e : CacheEntry),
      dictGet (generate_key (keyFn a) pre) s'.cache = some e →
      e.value = .vnone →
      (sync_wrapper none keyFn pre ttl f s' w a m).2.2 = w + 1) := by
  refine ⟨⟨?_, rfl⟩, ?_, ?_⟩
  · rw [wrapper_miss_ok hmiss hf]
    have hc : (({ s0 with stats := { s0.stats with
          misses := s0.stats.misses + 1 } } : MemoryCache).set
            (keyFn a) Val.vnone ttl pre n).cache
        = dictInsert (generate_key (keyFn a) pre) (mkEntry .vnone n (n + ttl))
            (if ({ s0 with stats := { s0.stats with
                  misses := s0.stats.misses + 1 } } : MemoryCache).max_size
                ≤ ({ s0 with stats := { s0.stats with
                    misses := s0.stats.misses + 1 } } : MemoryCache).cache.length
                ∧ dictGet (generate_key (keyFn a) pre)
                  ({ s0 with stats := { s0.stats with
                      misses := s0.stats.misses + 1 } } : MemoryCache).cache
                  = none
             then evict_lru { s0 with stats := { s0.stats with
                 misses := s0.stats.misses + 1 } }
             else { s0 with stats := { s0.stats with
                 misses := s0.stats.misses + 1 } }).cache := rfl
    rw [hc]
    exact dictGet_dictInsert_self
  · rw [wrapper_miss_ok hmiss hf]
  · intro s' w m e hg hval
    exact wrapper_vnone_invokes hg hval

/-- Witness for C10: a fetch returning `None` called twice on the same
argument against a fresh store. -/
theorem C10_none_results_not_served_witness :
    (dictGet (generate_key "a" none) (initCache 10).cache = none) ∧
    (dictGet (generate_key "a" none)
        (sync_wrapper none (fun s : String => s) none 60
          noneFetch (initCache 10) 0 "a" 0).2.1.cache
      = some (mkEntry .vnone 0 (0 + 60)) ∧
     (sync_wrapper none (fun s : String => s) none 60
        noneFetch (initCache 10) 0 "a" 0).2.2 = 0 + 1 ∧
     (sync_wrapper none (fun s : String => s) none 60
        noneFetch
        (sync_wrapper none (fun s : String => s) none 60
          noneFetch (initCache 10) 0 "a" 0).2.1 1 "a" 1).2.2
      = 1 + 1) := by
  have h := C10_none_results_not_served (fun s : String => s) none 60
    noneFetch "a" (initCache 10) 0 0 (by decide) rfl
  refine ⟨by decide, h.1.1, h.2.1, ?_⟩
  exact h.2.2 (sync_wrapper none (fun s : String => s) none 60
      noneFetch (initCache 10) 0 "a" 0).2.1 1 1
    (mkEntry .vnone 0 (0 + 60)) h.1.1 rfl

/-! ## Bounded size and LRU eviction (C1) -/

theorem set_eq_of_evict {s : MemoryCache} {key : String} {pre : Option String}
    (v : Val) (ttl now : Nat)
    (hc : s.max_size ≤ s.cache.length ∧
          dictGet (generate_key key pre) s.cache = none) :
    (s.set key v ttl pre now).cache
      = dictInsert (generate_key key pre) (mkEntry v now (now + ttl))
          (evict_lru s).cache ∧
    (s.set key v ttl pre now).stats.evictions
      = (evict_lru s).stats.evictions := by
  constructor <;> simp [MemoryCache.set, if_pos hc]

theorem set_eq_no_evict {s : MemoryCache} {key : String} {pre : Option String}
    (v : Val) (ttl now : Nat)
    (hc : ¬ (s.max_size ≤ s.cache.length ∧
             dictGet (generate_key key pre) s.cache = none)) :
    (s.set key v ttl pre now).cache
      = dictInsert (generate_key key pre) (mkEntry v now (now + ttl)) s.cache ∧
    (s.set key v ttl pre now).stats.evictions = s.stats.evictions := by
  constructor <;> simp [MemoryCache.set, if_neg hc]

theorem evict_proj {s : MemoryCache} {p : String × Nat}
    {rest : List (String × Nat)} (hao : s.access_order = p :: rest) :
    (evict_lru s).cache = dictRemove (lruPair p rest).1 s.cache ∧
    (evict_lru s).stats.evictions = s.stats.evictions + 1 := by
  constructor <;> simp [evict_lru, hao]

/-- C1: from a fresh store with bound `N ≥ 1`, every reachable state
holds at most `N` entries; a `set` on a novel key when the store holds
exactly `N` entries first evicts exactly one entry — one whose LRU
timestamp is minimal among all tracked keys — and ends at exactly `N`
entries with the eviction counter bumped once; a `set` on an
already-present key changes neither the key set nor the eviction
counter. -/
theorem C1_bounded_lru_eviction (N : Nat) (hN : 1 ≤ N) (ops : List CacheOp)
    (key : String) (v : Val) (ttl : Nat) (pre : Option String) (now : Nat) :
    (runOps N ops).cache.length ≤ N ∧
    (dictGet (generate_key key pre) (runOps N ops).cache = none →
      (runOps N ops).cache.length = N →
      ∃ q : String × Nat, q ∈ (runOps N ops).access_order ∧
        (∀ r ∈ (runOps N ops).access_order, q.2 ≤ r.2) ∧
        ((runOps N ops).set key v ttl pre now).cache.map Prod.fst
          = ((runOps N ops).cache.map Prod.fst).filter (· != q.1)
              ++ [generate_key key pre] ∧
        ((runOps N ops).set key v ttl pre now).stats.evictions
          = (runOps N ops).stats.evictions + 1 ∧
        ((runOps N ops).set key v ttl pre now).cache.length = N) ∧
    (∀ e : CacheEntry,
      dictGet (generate_key key pre) (runOps N ops).cache = some e →
      ((runOps N ops).set key v ttl pre now).stats.evictions
        = (runOps N ops).stats.evictions ∧
      ((runOps N ops).set key v ttl pre now).cache.map Prod.fst
        = (runOps N ops).cache.map Prod.fst) := by
  obtain ⟨⟨h1, h2, h3⟩, hm⟩ := inv_runOps N hN ops
  set s := runOps N ops with hs
  refine ⟨hm ▸ h3, ?_, ?_⟩
  · intro hfresh hlen
    have hc : s.max_size ≤ s.cache.length ∧
        dictGet (generate_key key pre) s.cache = none := by
      rw [hm, hlen]
      exact ⟨le_refl N, hfresh⟩
    rcases hao : s.access_order with _ | ⟨p, rest⟩
    · exfalso
      have hkeys0 : s.cache.map Prod.fst = [] := by rw [h1, hao]; simp
      have hc0 : s.cache = [] := by
        cases hcc : s.cache with
        | nil => rfl
        | cons a l => rw [hcc] at hkeys0; simp at hkeys0
      rw [hc0] at hlen
      simp at hlen
      omega
    refine ⟨lruPair p rest, ?_, ?_, ?_, ?_, ?_⟩
    · exact lruPair_mem
    · intro r hr
      rcases List.mem_cons.1 hr with h | h
      · exact h ▸ lruPair_min.1
      · exact lruPair_min.2 r h
    · rw [(set_eq_of_evict v ttl now hc).1, keys_dictInsert]
      have hek : (evict_lru s).cache.map Prod.fst
          = (s.cache.map Prod.fst).filter (· != (lruPair p rest).1) := by
        rw [(evict_proj hao).1, keys_dictRemove]
      have hnm : generate_key key pre ∉ (evict_lru s).cache.map Prod.fst := by
        rw [hek]
        intro hmem
        exact (dictGet_eq_none.1 hfresh) (List.mem_of_mem_filter hmem)
      rw [if_neg hnm, hek]
    · rw [(set_eq_of_evict v ttl now hc).2, (evict_proj hao).2]
    · have hgq : dictGet (lruPair p rest).1 s.cache ≠ none := by
        intro hnone
        apply dictGet_eq_none.1 hnone
        rw [h1, hao]
        exact List.mem_map_of_mem Prod.fst lruPair_mem
      have hrem : (dictRemove (lruPair p rest).1 s.cache).length + 1
          = s.cache.length := length_dictRemove_mem h2 hgq
      have hfr : dictGet (generate_key key pre) (evict_lru s).cache = none := by
        apply dictGet_eq_none.2
        rw [(evict_proj hao).1, keys_dictRemove]
        intro hmem
        exact (dictGet_eq_none.1 hfresh) (List.mem_of_mem_filter hmem)
      rw [(set_eq_of_evict v ttl now hc).1, length_dictInsert_new hfr,
        (evict_proj hao).1]
      omega
  · intro e hsome
    have hc : ¬ (s.max_size ≤ s.cache.length ∧
        dictGet (generate_key key pre) s.cache = none) := by
      intro hcc
      rw [hsome] at hcc
      exact Option.noConfusion hcc.2
    have hmem : generate_key key pre ∈ s.cache.map Prod.fst := by
      by_contra hnm
      rw [dictGet_eq_none.2 hnm] at hsome
      exact Option.noConfusion hsome
    refine ⟨(set_eq_no_evict v ttl now hc).2, ?_⟩
    rw [(set_eq_no_evict v ttl now hc).1, keys_dictInsert, if_pos hmem]

/-- Witness for C1: a store with bound 1 already holding `"a"`; setting
the novel key `"b"` evicts and stays at one entry. -/
theorem C1_bounded_lru_eviction_witness :
    (1 ≤ 1 ∧
     dictGet (generate_key "b" none)
        (runOps 1 [.opSet "a" (.vstr "x") 5 none 0]).cache = none ∧
     (runOps 1 [.opSet "a" (.vstr "x") 5 none 0]).cache.length = 1) ∧
    (runOps 1 [.opSet "a" (.vstr "x") 5 none 0]).cache.length ≤ 1 ∧
    (∃ q : String × Nat,
      q ∈ (runOps 1 [.opSet "a" (.vstr "x") 5 none 0]).access_order ∧
      (∀ r ∈ (runOps 1 [.opSet "a" (.vstr "x") 5 none 0]).access_order,
        q.2 ≤ r.2) ∧
      ((runOps 1 [.opSet "a" (.vstr "x") 5 none 0]).set
          "b" (.vstr "y") 5 none 3).cache.map Prod.fst
        = ((runOps 1 [.opSet "a" (.vstr "x") 5 none 0]).cache.map
            Prod.fst).filter (· != q.1) ++ [generate_key "b" none] ∧
      ((runOps 1 [.opSet "a" (.vstr "x") 5 none 0]).set
          "b" (.vstr "y") 5 none 3).stats.evictions
        = (runOps 1 [.opSet "a" (.vstr "x") 5 none 0]).stats.evictions + 1 ∧
      ((runOps 1 [.opSet "a" (.vstr "x") 5 none 0]).set
          "b" (.vstr "y") 5 none 3).cache.length = 1) := by
  have h := C1_bounded_lru_eviction 1 (le_refl 1)
    [.opSet "a" (.vstr "x") 5 none 0] "b" (.vstr "y") 5 none 3
  exact ⟨⟨le_refl 1, by decide, by decide⟩, h.1,
    h.2.1 (by decide) (by decide)⟩

end ErgoCache
